import Mathlib

/-!
Verification of the matching core of the stock-exchange demo
(`src/core/types.ts`, `src/core/dll.ts`, `src/core/orderBook.ts`, and the
mode-aware `MatchingEngine`).

Shallow embedding conventions:
* JS numbers for prices and quantities are modelled as `Int` (the program only
  ever adds and subtracts them).
* A JS `Map` is modelled as an association list in insertion order; `Map.set`
  replaces in place or appends a fresh key at the end, `Map.delete` removes
  the entry (keys of a JS `Map` are unique).
* A price level's doubly linked list of orders is modelled as the list of
  order ids in queue order (head = front).  Each `ListNode` holds a reference
  to the same `Order` object that the id index holds, so the single
  authoritative copy of every order lives in the id index and a queued id is
  resolved through the index; this models JS reference sharing (mutating
  `order.qty` is visible through both the node and the index).
* The `wal.append` / `eventBus.publish` calls and the book mutations are
  recorded in an explicit effect trace, in program order.
-/

namespace StockExchange

/-- Side of an order: BUY or SELL (`src/core/types.ts`). -/
inductive Side where
  | BUY
  | SELL
deriving DecidableEq, Repr

/-- A single order (`src/core/types.ts`): id, side, limit price, remaining
quantity, logical arrival timestamp, optional symbol. -/
structure Order where
  id : String
  side : Side
  price : Int
  qty : Int
  ts : Nat
  symbol : Option String := none
deriving DecidableEq, Repr

/-- The canonical event union (`src/core/types.ts`): NEW_ORDER, CANCEL_ORDER,
TRADE. -/
inductive Event where
  | NEW_ORDER (order : Order)
  | CANCEL_ORDER (orderId : String)
  | TRADE (buyId : String) (sellId : String) (qty : Int) (price : Int)
deriving DecidableEq, Repr

/-- `Map.get`: value of the first (= only, keys being unique) entry with the
given key. -/
def mapGet {α β : Type} [DecidableEq α] (k : α) : List (α × β) → Option β
  | [] => none
  | e :: es => if e.1 = k then some e.2 else mapGet k es

/-- `Map.set`: replace the value at an existing key in place, or append a new
entry at the end (JS `Map` iteration order is insertion order). -/
def mapSet {α β : Type} [DecidableEq α] (k : α) (v : β) : List (α × β) → List (α × β)
  | [] => [(k, v)]
  | e :: es => if e.1 = k then (k, v) :: es else e :: mapSet k v es

/-- `Map.delete`: remove the entry with the given key, if present. -/
def mapDelete {α β : Type} [DecidableEq α] (k : α) : List (α × β) → List (α × β)
  | [] => []
  | e :: es => if e.1 = k then es else e :: mapDelete k es

/-- A price level: the FIFO queue of a `DoublyLinkedList<Order>`, as ids in
queue order (head = front of the queue). -/
abbrev Level := List String

/-- The order book (`src/core/orderBook.ts`): price-indexed FIFO levels for
each side plus the critical id index for O(1) cancel.  The `index` holds the
authoritative `Order` objects; levels hold references (ids). -/
structure OrderBook where
  buys : List (Int × Level)
  sells : List (Int × Level)
  index : List (String × Order)
deriving DecidableEq, Repr

/-- The empty book (`new OrderBook()`). -/
def OrderBook.empty : OrderBook := ⟨[], [], []⟩

/-- The price-level map of the given side (`order.side === "BUY" ? this.buys
: this.sells`). -/
def OrderBook.sideLevels (b : OrderBook) : Side → List (Int × Level)
  | .BUY => b.buys
  | .SELL => b.sells

/-- Replace the price-level map of the given side. -/
def OrderBook.setSide (b : OrderBook) : Side → List (Int × Level) → OrderBook
  | .BUY, ls => { b with buys := ls }
  | .SELL, ls => { b with sells := ls }

/-- `OrderBook.add`: append the order to its side+price level (creating the
level if absent) and register the id → reference mapping. -/
def OrderBook.add (b : OrderBook) (o : Order) : OrderBook :=
  let levels := b.sideLevels o.side
  let lvl := (mapGet o.price levels).getD []
  let b' := b.setSide o.side (mapSet o.price (lvl ++ [o.id]) levels)
  { b' with index := mapSet o.id o b'.index }

/-- Helper: replace the id index (the book mutates `this.index` in place). -/
def OrderBook.withIndex (b : OrderBook) (ix : List (String × Order)) : OrderBook :=
  { b with index := ix }

/-- `OrderBook.cancel`: no-op on an unknown id; otherwise remove the order's
node from its level, drop the id mapping, and delete the level if it became
empty.  (`level.remove(node)` detaches the node the index handle points to;
with unique ids per level this is the first occurrence of the id.) -/
def OrderBook.cancel (b : OrderBook) (orderId : String) : OrderBook :=
  match mapGet orderId b.index with
  | none => b
  | some o =>
    let levels := b.sideLevels o.side
    match mapGet o.price levels with
    | none => b
    | some lvl =>
      let lvl' := lvl.erase orderId
      let levels' := if lvl' = [] then mapDelete o.price levels else mapSet o.price lvl' levels
      (b.setSide o.side levels').withIndex (mapDelete orderId b.index)

/-- `Math.max(...this.buys.keys())`: maximum key of a level map. -/
def maxKey : List (Int × Level) → Option Int
  | [] => none
  | e :: es =>
    match maxKey es with
    | none => some e.1
    | some m => some (max e.1 m)

/-- `Math.min(...this.sells.keys())`: minimum key of a level map. -/
def minKey : List (Int × Level) → Option Int
  | [] => none
  | e :: es =>
    match minKey es with
    | none => some e.1
    | some m => some (min e.1 m)

/-- `OrderBook.bestBuy`: the front order of the highest-priced bid level, or
none.  The front node's order reference is resolved through the id index
(nodes and index share the same `Order` object). -/
def OrderBook.bestBuy (b : OrderBook) : Option Order :=
  match maxKey b.buys with
  | none => none
  | some price =>
    match (mapGet price b.buys).getD [] with
    | [] => none
    | fid :: _ => mapGet fid b.index

/-- `OrderBook.bestSell`: the front order of the lowest-priced ask level, or
none. -/
def OrderBook.bestSell (b : OrderBook) : Option Order :=
  match minKey b.sells with
  | none => none
  | some price =>
    match (mapGet price b.sells).getD [] with
    | [] => none
    | fid :: _ => mapGet fid b.index

/-- Processing mode (`type ProcessMode = "live" | "replay"`). -/
inductive ProcessMode where
  | live
  | replay
deriving DecidableEq, Repr

/-- One externally visible step of the engine, in program order: a WAL
append, an EventBus publish, a book insertion, a book cancellation, or the
in-memory execution of a trade (the two `qty -=` mutations). -/
inductive Effect where
  | walAppend (e : Event)
  | busPublish (e : Event)
  | bookAdd (o : Order)
  | bookCancel (orderId : String)
  | tradeExec (e : Event)
deriving DecidableEq, Repr

/-- The in-place mutation `order.qty -= q` of the shared `Order` object with
the given id, seen through the id index. -/
def updQty (oid : String) (q : Int) (e : String × Order) : String × Order :=
  if e.1 = oid then (e.1, { e.2 with qty := e.2.qty - q }) else e

namespace MatchingEngine

/-- One iteration of the `while (true)` matching loop: `none` when the loop
returns (either side empty, or best bid < best ask); otherwise the TRADE
event, the ids cancelled because their remaining quantity reached zero (in
program order: buy first, then sell), and the book after the iteration.
`buy.qty -= qty` / `sell.qty -= qty` mutate the shared order objects, i.e.
update the index entries. -/
def matchStep (b : OrderBook) : Option (Event × List String × OrderBook) :=
  match b.bestBuy, b.bestSell with
  | some buy, some sell =>
    if buy.price < sell.price then none
    else
      let qty := min buy.qty sell.qty
      let price := sell.price
      let b1 := b.withIndex (b.index.map (updQty buy.id qty))
      let b2 := b1.withIndex (b1.index.map (updQty sell.id qty))
      let trade := Event.TRADE buy.id sell.id qty price
      let cancels := (if buy.qty - qty = 0 then [buy.id] else [])
        ++ (if sell.qty - qty = 0 then [sell.id] else [])
      let b3 := if buy.qty - qty = 0 then b2.cancel buy.id else b2
      let b4 := if sell.qty - qty = 0 then b3.cancel sell.id else b3
      some (trade, cancels, b4)
  | _, _ => none

/-- Effects of one loop iteration, in program order: the in-memory execution,
then (live mode only) the WAL append and EventBus publish of the TRADE, then
the cancellations of fully filled orders. -/
def stepEffects (mode : ProcessMode) (trade : Event) (cancels : List String) : List Effect :=
  Effect.tradeExec trade
    :: (if mode = .live then [Effect.walAppend trade, Effect.busPublish trade] else [])
    ++ cancels.map Effect.bookCancel

/-- The matching loop, fuel-indexed (the source's `while (true)` has no
counter; `matchLoop` below supplies enough fuel for the loop to reach its
fixed point on every well-formed book). -/
def matchRun (mode : ProcessMode) : Nat → OrderBook → OrderBook × List Effect
  | 0, b => (b, [])
  | fuel + 1, b =>
    match matchStep b with
    | none => (b, [])
    | some (trade, cancels, b') =>
      let r := matchRun mode fuel b'
      (r.1, stepEffects mode trade cancels ++ r.2)

/-- `MatchingEngine.match`: the loop run with fuel = number of resting
orders.  Every iteration of the source loop removes at least one fully
filled order from a well-formed book, so this fuel reaches the loop's fixed
point (proved below for well-formed books with positive quantities). -/
def matchLoop (mode : ProcessMode) (b : OrderBook) : OrderBook × List Effect :=
  matchRun mode b.index.length b

/-- `MatchingEngine.process` at a resolved mode: the new book and the effect
trace in program order.  NEW_ORDER: (live) WAL append and publish first, then
the book insertion and the matching loop.  CANCEL_ORDER: (live) WAL append
and publish first, then the book cancellation.  TRADE: ignored. -/
def procTrace (e : Event) (mode : ProcessMode) (b : OrderBook) : OrderBook × List Effect :=
  match e with
  | .NEW_ORDER o =>
    let pre := if mode = .live then [Effect.walAppend e, Effect.busPublish e] else []
    let b1 := b.add o
    let r := matchLoop mode b1
    (r.1, pre ++ Effect.bookAdd o :: r.2)
  | .CANCEL_ORDER oid =>
    let pre := if mode = .live then [Effect.walAppend e, Effect.busPublish e] else []
    (b.cancel oid, pre ++ [Effect.bookCancel oid])
  | .TRADE _ _ _ _ => (b, [])

/-- `MatchingEngine.process(event, options)`: `options.mode ?? "live"` — an
absent options object (or an options object without `mode`) resolves to live
mode. -/
def process (e : Event) (options : Option ProcessMode) (b : OrderBook) : OrderBook × List Effect :=
  procTrace e (options.getD .live) b

end MatchingEngine

/-- The WAL appends of an effect trace, in order (the durability-log
contents produced by the trace). -/
def walWrites (effs : List Effect) : List Event :=
  effs.filterMap fun
    | .walAppend e => some e
    | _ => none

/-- The EventBus publishes of an effect trace, in order. -/
def busWrites (effs : List Effect) : List Event :=
  effs.filterMap fun
    | .busPublish e => some e
    | _ => none

/-- The TRADE events executed by an effect trace, in order. -/
def tradesOf (effs : List Effect) : List Event :=
  effs.filterMap fun
    | .tradeExec e => some e
    | _ => none

/-- Process a sequence of events at a fixed mode, accumulating the book and
the concatenated effect trace (the per-startup replay loop in the
composition root does exactly this fold in replay mode). -/
def runEvents (mode : ProcessMode) : List Event → OrderBook → OrderBook × List Effect
  | [], b => (b, [])
  | e :: es, b =>
    let r1 := MatchingEngine.procTrace e mode b
    let r2 := runEvents mode es r1.1
    (r2.1, r1.2 ++ r2.2)

/-- Keys of an association list, in order. -/
def keysOf {α β : Type} (l : List (α × β)) : List α := l.map (·.1)

/-- All order ids queued in a side's price levels, in level order. -/
def levelIds (levels : List (Int × Level)) : List String := (levels.map (·.2)).flatten

/-- All order ids queued anywhere in the book (bid side first). -/
def allIds (b : OrderBook) : List String := levelIds b.buys ++ levelIds b.sells

/-- A side's price-level map is well-formed: price keys are unique (a JS
`Map` guarantee) and no empty level persists. -/
def levelsOk (levels : List (Int × Level)) : Prop :=
  (keysOf levels).Nodup ∧ ∀ pl ∈ levels, pl.2 ≠ []

/-- Order-book structural invariant: well-formed sides, every queued id
queued exactly once overall, unique index keys, every index entry keyed by
its order's id and queued in the level for its own side and price, and every
queued id indexed. -/
def WF (b : OrderBook) : Prop :=
  levelsOk b.buys ∧ levelsOk b.sells ∧
  (allIds b).Nodup ∧
  (keysOf b.index).Nodup ∧
  (∀ e ∈ b.index, e.2.id = e.1 ∧ e.1 ∈ (mapGet e.2.price (b.sideLevels e.2.side)).getD []) ∧
  (∀ id ∈ allIds b, (mapGet id b.index).isSome)

/-- Every resting order has strictly positive remaining quantity. -/
def PosQty (b : OrderBook) : Prop := ∀ e ∈ b.index, 0 < e.2.qty

instance WFDecidable (b : OrderBook) : Decidable (WF b) := by
  unfold WF levelsOk
  infer_instance

instance PosQtyDecidable (b : OrderBook) : Decidable (PosQty b) := by
  unfold PosQty
  infer_instance

/-- Total resting quantity of the book. -/
def totalQty (b : OrderBook) : Int := (b.index.map (fun e => e.2.qty)).sum

/-- A crossable pair exists: both sides non-empty and best bid price ≥ best
ask price. -/
def crossable (b : OrderBook) : Prop :=
  ∃ buy sell, b.bestBuy = some buy ∧ b.bestSell = some sell ∧ sell.price ≤ buy.price

/-- Whether an event is a TRADE. -/
def isTrade : Event → Bool
  | .TRADE _ _ _ _ => true
  | _ => false

/-- A valid engine input: a NEW_ORDER with strictly positive price and
quantity, or a CANCEL_ORDER. -/
def validInput : Event → Bool
  | .NEW_ORDER o => 0 < o.price && 0 < o.qty
  | .CANCEL_ORDER _ => true
  | .TRADE _ _ _ _ => false

/-- The id introduced by an event, when it is a NEW_ORDER. -/
def newOrderId : Event → Option String
  | .NEW_ORDER o => some o.id
  | _ => none

/-- A valid command sequence: only NEW_ORDER/CANCEL_ORDER inputs, positive
prices and quantities, and pairwise distinct new-order ids. -/
def validSeq (cs : List Event) : Prop :=
  (∀ c ∈ cs, validInput c) ∧ (cs.filterMap newOrderId).Nodup

instance validSeqDecidable (cs : List Event) : Decidable (validSeq cs) := by
  unfold validSeq; infer_instance

/-- A live run from the empty book. -/
def liveRun (cs : List Event) : OrderBook × List Effect :=
  runEvents .live cs OrderBook.empty

/-- The durability-log contents a live run appends (accepted inputs
interleaved with synthesized trades, in append order). -/
def liveLog (cs : List Event) : List Event := walWrites (liveRun cs).2

/-- Replaying a live run's log through a fresh engine in replay mode. -/
def replayRun (cs : List Event) : OrderBook × List Effect :=
  runEvents .replay (liveLog cs) OrderBook.empty

/-- Scenario order BUY 10@100 (spec §8). -/
def sB1 : Order := { id := "B1", side := .BUY, price := 100, qty := 10, ts := 1 }

/-- Scenario order SELL 4@100 (spec §8). -/
def sS1 : Order := { id := "S1", side := .SELL, price := 100, qty := 4, ts := 2 }

/-- Scenario order SELL 10@99 (spec §8). -/
def sS2 : Order := { id := "S2", side := .SELL, price := 99, qty := 10, ts := 3 }

/-- Scenario after submitting BUY 10@100 to the empty book, live mode. -/
def scn2a : OrderBook × List Effect :=
  MatchingEngine.procTrace (.NEW_ORDER sB1) .live .empty

/-- Scenario after then submitting SELL 4@100. -/
def scn2b : OrderBook × List Effect :=
  MatchingEngine.procTrace (.NEW_ORDER sS1) .live scn2a.1

/-- Scenario after then submitting SELL 10@99 (the third command). -/
def scn2c : OrderBook × List Effect :=
  MatchingEngine.procTrace (.NEW_ORDER sS2) .live scn2b.1

/-- FIFO-scenario order: first BUY 5@100 (spec §8). -/
def sF1 : Order := { id := "F1", side := .BUY, price := 100, qty := 5, ts := 1 }

/-- FIFO-scenario order: second BUY 5@100, same price, later arrival. -/
def sF2 : Order := { id := "F2", side := .BUY, price := 100, qty := 5, ts := 2 }

/-- FIFO-scenario order: SELL 5@100. -/
def sF3 : Order := { id := "F3", side := .SELL, price := 100, qty := 5, ts := 3 }

/-- FIFO scenario: both buys submitted, live mode. -/
def scn3ab : OrderBook × List Effect :=
  runEvents .live [.NEW_ORDER sF1, .NEW_ORDER sF2] OrderBook.empty

/-- FIFO scenario: the SELL 5@100 arrives (the third command). -/
def scn3c : OrderBook × List Effect :=
  MatchingEngine.procTrace (.NEW_ORDER sF3) .live scn3ab.1

/-! ### Mode independence of the book state -/

theorem matchRun_fst_mode (m m' : ProcessMode) (n : Nat) (b : OrderBook) :
    (MatchingEngine.matchRun m n b).1 = (MatchingEngine.matchRun m' n b).1 := by
  induction n generalizing b with
  | zero => rfl
  | succ n ih =>
    simp only [MatchingEngine.matchRun]
    cases h : MatchingEngine.matchStep b with
    | none => rfl
    | some x => simpa using ih x.2.2

theorem procTrace_fst_mode (e : Event) (m m' : ProcessMode) (b : OrderBook) :
    (MatchingEngine.procTrace e m b).1 = (MatchingEngine.procTrace e m' b).1 := by
  cases e <;>
    simp [MatchingEngine.procTrace, MatchingEngine.matchLoop,
      matchRun_fst_mode m m']

/-! ### Inversion of a successful matching iteration -/

theorem matchStep_some_shape {b : OrderBook} {x : Event × List String × OrderBook}
    (h : MatchingEngine.matchStep b = some x) :
    ∃ buy sell, b.bestBuy = some buy ∧ b.bestSell = some sell ∧
      sell.price ≤ buy.price ∧
      x.1 = Event.TRADE buy.id sell.id (min buy.qty sell.qty) sell.price := by
  unfold MatchingEngine.matchStep at h
  cases hb : b.bestBuy with
  | none => simp only [hb] at h; cases b.bestSell <;> simp at h
  | some buy =>
    cases hs : b.bestSell with
    | none => simp only [hb, hs] at h; simp at h
    | some sell =>
      simp only [hb, hs] at h
      by_cases hp : buy.price < sell.price
      · rw [if_pos hp] at h; exact absurd h (by simp)
      · rw [if_neg hp] at h
        have hx := Option.some.inj h
        subst hx
        exact ⟨buy, sell, rfl, rfl, not_lt.mp hp, rfl⟩

/-! ### Effects discipline -/

theorem walWrites_append (xs ys : List Effect) :
    walWrites (xs ++ ys) = walWrites xs ++ walWrites ys := by
  simp [walWrites]

theorem busWrites_append (xs ys : List Effect) :
    busWrites (xs ++ ys) = busWrites xs ++ busWrites ys := by
  simp [busWrites]

theorem walWrites_cancels (cancels : List String) :
    walWrites (cancels.map Effect.bookCancel) = [] := by
  induction cancels with
  | nil => rfl
  | cons c cs ih => simp [walWrites] at ih ⊢

theorem busWrites_cancels (cancels : List String) :
    busWrites (cancels.map Effect.bookCancel) = [] := by
  induction cancels with
  | nil => rfl
  | cons c cs ih => simp [busWrites] at ih ⊢

theorem walWrites_stepEffects_replay (t : Event) (cs : List String) :
    walWrites (MatchingEngine.stepEffects .replay t cs) = [] := by
  simp [MatchingEngine.stepEffects, walWrites, walWrites_cancels]

theorem busWrites_stepEffects_replay (t : Event) (cs : List String) :
    busWrites (MatchingEngine.stepEffects .replay t cs) = [] := by
  simp [MatchingEngine.stepEffects, busWrites, busWrites_cancels]

theorem matchRun_replay_silent (n : Nat) (b : OrderBook) :
    walWrites (MatchingEngine.matchRun .replay n b).2 = [] ∧
    busWrites (MatchingEngine.matchRun .replay n b).2 = [] := by
  induction n generalizing b with
  | zero => exact ⟨rfl, rfl⟩
  | succ n ih =>
    simp only [MatchingEngine.matchRun]
    cases h : MatchingEngine.matchStep b with
    | none => exact ⟨rfl, rfl⟩
    | some x =>
      obtain ⟨ihw, ihb⟩ := ih x.2.2
      simp [walWrites_append, busWrites_append, ihw, ihb,
        walWrites_stepEffects_replay, busWrites_stepEffects_replay]

theorem procTrace_replay_silent (e : Event) (b : OrderBook) :
    walWrites (MatchingEngine.procTrace e .replay b).2 = [] ∧
    busWrites (MatchingEngine.procTrace e .replay b).2 = [] := by
  cases e with
  | NEW_ORDER o =>
    have h := matchRun_replay_silent (b.add o).index.length (b.add o)
    simpa [MatchingEngine.procTrace, MatchingEngine.matchLoop, walWrites, busWrites] using h
  | CANCEL_ORDER oid => exact ⟨rfl, rfl⟩
  | TRADE b s q p => exact ⟨rfl, rfl⟩

theorem runEvents_replay_silent (es : List Event) (b : OrderBook) :
    walWrites (runEvents .replay es b).2 = [] ∧
    busWrites (runEvents .replay es b).2 = [] := by
  induction es generalizing b with
  | nil => exact ⟨rfl, rfl⟩
  | cons e es ih =>
    obtain ⟨hw, hb⟩ := procTrace_replay_silent e b
    obtain ⟨ihw, ihb⟩ := ih (MatchingEngine.procTrace e .replay b).1
    simp [runEvents, walWrites_append, busWrites_append, hw, hb, ihw, ihb]

/-! ### The live log's shape and replay absorption -/

theorem walWrites_matchRun_live_trades (n : Nat) (b : OrderBook) :
    ∀ ev ∈ walWrites (MatchingEngine.matchRun .live n b).2, isTrade ev = true := by
  induction n generalizing b with
  | zero => intro ev h; simp [MatchingEngine.matchRun, walWrites] at h
  | succ n ih =>
    intro ev hev
    simp only [MatchingEngine.matchRun] at hev
    cases h : MatchingEngine.matchStep b with
    | none => simp [h, walWrites] at hev
    | some x =>
      rw [h] at hev
      simp only [walWrites_append, List.mem_append] at hev
      rcases hev with hev | hev
      · simp [MatchingEngine.stepEffects, walWrites, walWrites_cancels] at hev
        subst hev
        obtain ⟨buy, sell, -, -, -, hx⟩ := matchStep_some_shape h
        simp [hx, isTrade]
      · exact ih x.2.2 ev hev

theorem runEvents_trades_id (m : ProcessMode) (ts : List Event) (b : OrderBook)
    (h : ∀ ev ∈ ts, isTrade ev = true) : runEvents m ts b = (b, []) := by
  induction ts with
  | nil => rfl
  | cons t ts ih =>
    have ht : isTrade t = true := h t (by simp)
    obtain ⟨bi, si, q, p, rfl⟩ : ∃ bi si q p, t = Event.TRADE bi si q p := by
      cases t <;> simp [isTrade] at ht ⊢
    have : MatchingEngine.procTrace (Event.TRADE bi si q p) m b = (b, []) := by
      simp [MatchingEngine.procTrace]
    simp [runEvents, this, ih fun ev hev => h ev (by simp [hev])]

theorem runEvents_append_fst (m : ProcessMode) (xs ys : List Event) (b : OrderBook) :
    (runEvents m (xs ++ ys) b).1 = (runEvents m ys (runEvents m xs b).1).1 := by
  induction xs generalizing b with
  | nil => rfl
  | cons e xs ih => simp [runEvents, ih]

theorem replay_of_liveLog (cs : List Event) (b : OrderBook) :
    (runEvents .replay (walWrites (runEvents .live cs b).2) b).1
      = (runEvents .live cs b).1 := by
  induction cs generalizing b with
  | nil => rfl
  | cons c cs ih =>
    simp only [runEvents, walWrites_append]
    cases c with
    | NEW_ORDER o =>
      have hwal : walWrites (MatchingEngine.procTrace (.NEW_ORDER o) .live b).2
          = Event.NEW_ORDER o :: walWrites (MatchingEngine.matchLoop .live (b.add o)).2 := by
        simp [MatchingEngine.procTrace, walWrites]
      rw [hwal, List.cons_append]
      simp only [runEvents]
      rw [procTrace_fst_mode (.NEW_ORDER o) .replay .live, runEvents_append_fst,
        runEvents_trades_id .replay (walWrites (MatchingEngine.matchLoop .live (b.add o)).2)
          (MatchingEngine.procTrace (Event.NEW_ORDER o) ProcessMode.live b).1 (by
          have := walWrites_matchRun_live_trades (b.add o).index.length (b.add o)
          simpa [MatchingEngine.matchLoop] using this)]
      exact ih _
    | CANCEL_ORDER oid =>
      have hwal : walWrites (MatchingEngine.procTrace (.CANCEL_ORDER oid) .live b).2
          = [Event.CANCEL_ORDER oid] := by
        simp [MatchingEngine.procTrace, walWrites]
      rw [hwal, List.cons_append, List.nil_append]
      simp only [runEvents]
      rw [procTrace_fst_mode (.CANCEL_ORDER oid) .replay .live]
      exact ih _
    | TRADE bi si q p =>
      have hwal : walWrites (MatchingEngine.procTrace (.TRADE bi si q p) .live b).2 = [] := rfl
      rw [hwal, List.nil_append]
      have hfst : (MatchingEngine.procTrace (.TRADE bi si q p) .live b).1 = b := rfl
      rw [hfst]
      exact ih b

/-- C1: for every valid sequence of NEW_ORDER/CANCEL_ORDER commands, replaying
the live run's durability-log contents through a fresh engine in replay mode
reproduces exactly the live engine's final book, and the replay run performs
zero durability-log appends and zero propagation-channel publishes. -/
theorem c1_replay_equiv (cs : List Event) (h : validSeq cs) :
    (replayRun cs).1 = (liveRun cs).1 ∧
    walWrites (replayRun cs).2 = [] ∧ busWrites (replayRun cs).2 = [] :=
  ⟨replay_of_liveLog cs OrderBook.empty,
    (runEvents_replay_silent _ _).1, (runEvents_replay_silent _ _).2⟩

/-- Witness for C1 at the spec's three-command scenario. -/
theorem c1_replay_equiv_witness :
    validSeq [.NEW_ORDER sB1, .NEW_ORDER sS1, .NEW_ORDER sS2] ∧
    ((replayRun [.NEW_ORDER sB1, .NEW_ORDER sS1, .NEW_ORDER sS2]).1
        = (liveRun [.NEW_ORDER sB1, .NEW_ORDER sS1, .NEW_ORDER sS2]).1 ∧
      walWrites (replayRun [.NEW_ORDER sB1, .NEW_ORDER sS1, .NEW_ORDER sS2]).2 = [] ∧
      busWrites (replayRun [.NEW_ORDER sB1, .NEW_ORDER sS1, .NEW_ORDER sS2]).2 = []) :=
  ⟨by decide, c1_replay_equiv _ (by decide)⟩

/-! ### Association-list map lemmas -/

@[simp] theorem setSide_index (b : OrderBook) (s : Side) (ls : List (Int × Level)) :
    (b.setSide s ls).index = b.index := by
  cases s <;> rfl

@[simp] theorem withIndex_index (b : OrderBook) (ix : List (String × Order)) :
    (b.withIndex ix).index = ix := rfl

@[simp] theorem keysOf_nil {α β : Type} : keysOf ([] : List (α × β)) = [] := rfl

@[simp] theorem keysOf_cons {α β : Type} (e : α × β) (es : List (α × β)) :
    keysOf (e :: es) = e.1 :: keysOf es := rfl

theorem mapGet_eq_none {α β : Type} [DecidableEq α] {k : α} {l : List (α × β)} :
    mapGet k l = none ↔ k ∉ keysOf l := by
  induction l with
  | nil => simp [mapGet]
  | cons e es ih =>
    by_cases hk : e.1 = k
    · simp [mapGet, hk]
    · simp [mapGet, hk, Ne.symm hk, ih]

theorem mapGet_isSome {α β : Type} [DecidableEq α] {k : α} {l : List (α × β)} :
    (mapGet k l).isSome ↔ k ∈ keysOf l := by
  induction l with
  | nil => simp [mapGet]
  | cons e es ih =>
    by_cases hk : e.1 = k
    · simp [mapGet, hk]
    · simp [mapGet, hk, Ne.symm hk, ih]

theorem mapGet_mapSet_self {α β : Type} [DecidableEq α] (k : α) (v : β) (l : List (α × β)) :
    mapGet k (mapSet k v l) = some v := by
  induction l with
  | nil => simp [mapGet, mapSet]
  | cons e es ih =>
    by_cases hk : e.1 = k
    · simp [mapSet, hk, mapGet]
    · simp [mapSet, hk, mapGet, ih]

theorem mapGet_mapSet_ne {α β : Type} [DecidableEq α] {k' k : α} (v : β) (l : List (α × β))
    (h : k' ≠ k) : mapGet k' (mapSet k v l) = mapGet k' l := by
  induction l with
  | nil => simp [mapGet, mapSet, Ne.symm h]
  | cons e es ih =>
    by_cases hk : e.1 = k
    · simp [mapSet, hk, mapGet, Ne.symm h]
    · simp [mapSet, hk, mapGet, ih]

theorem keysOf_mapSet_mem {α β : Type} [DecidableEq α] {k : α} (v : β) {l : List (α × β)}
    (h : k ∈ keysOf l) : keysOf (mapSet k v l) = keysOf l := by
  induction l with
  | nil => simp at h
  | cons e es ih =>
    by_cases hk : e.1 = k
    · simp [mapSet, hk]
    · have h' : k ∈ keysOf es := by
        rcases List.mem_cons.mp (by simpa using h) with h' | h'
        · exact absurd h'.symm hk
        · exact h'
      simp [mapSet, hk, ih h']

theorem keysOf_mapSet_notMem {α β : Type} [DecidableEq α] {k : α} (v : β) {l : List (α × β)}
    (h : k ∉ keysOf l) : keysOf (mapSet k v l) = keysOf l ++ [k] := by
  induction l with
  | nil => simp [mapSet]
  | cons e es ih =>
    simp only [keysOf_cons, List.mem_cons] at h
    push_neg at h
    simp [mapSet, Ne.symm h.1, ih h.2]

theorem mapDelete_sublist {α β : Type} [DecidableEq α] (k : α) (l : List (α × β)) :
    (mapDelete k l).Sublist l := by
  induction l with
  | nil => simp [mapDelete]
  | cons e es ih =>
    by_cases hk : e.1 = k
    · simp [mapDelete, hk]
    · simp [mapDelete, hk]
      exact ih

theorem mapGet_mapDelete_ne {α β : Type} [DecidableEq α] {k' k : α} (l : List (α × β))
    (h : k' ≠ k) : mapGet k' (mapDelete k l) = mapGet k' l := by
  induction l with
  | nil => rfl
  | cons e es ih =>
    by_cases hk : e.1 = k
    · simp [mapDelete, hk, mapGet, Ne.symm h]
    · simp [mapDelete, hk, mapGet, ih]

theorem mapGet_mapDelete_self {α β : Type} [DecidableEq α] {k : α} {l : List (α × β)}
    (h : (keysOf l).Nodup) : mapGet k (mapDelete k l) = none := by
  induction l with
  | nil => rfl
  | cons e es ih =>
    simp only [keysOf_cons, List.nodup_cons] at h
    by_cases hk : e.1 = k
    · subst hk
      simp only [mapDelete, if_pos rfl]
      exact mapGet_eq_none.mpr h.1
    · simp [mapDelete, hk, mapGet, ih h.2]

theorem mapGet_mem {α β : Type} [DecidableEq α] {k : α} {v : β} {l : List (α × β)}
    (h : mapGet k l = some v) : (k, v) ∈ l := by
  induction l with
  | nil => simp [mapGet] at h
  | cons e es ih =>
    by_cases hk : e.1 = k
    · simp only [mapGet, if_pos hk] at h
      injection h with h
      subst h
      subst hk
      exact List.mem_cons_self e es
    · simp only [mapGet, if_neg hk] at h
      exact List.mem_cons_of_mem e (ih h)

theorem mem_mapGet {α β : Type} [DecidableEq α] {k : α} {v : β} {l : List (α × β)}
    (hn : (keysOf l).Nodup) (h : (k, v) ∈ l) : mapGet k l = some v := by
  induction l with
  | nil => simp at h
  | cons e es ih =>
    simp only [keysOf_cons, List.nodup_cons] at hn
    rcases List.mem_cons.mp h with h | h
    · simp [mapGet, ← h]
    · have hk : e.1 ≠ k := by
        intro hk
        subst hk
        exact hn.1 (List.mem_map_of_mem (·.1) h)
      simp [mapGet, hk, ih hn.2 h]

/-! ### C5, C7, C9, C10 -/

theorem cancel_of_get_none {b : OrderBook} {orderId : String}
    (h : mapGet orderId b.index = none) : b.cancel orderId = b := by
  unfold OrderBook.cancel
  rw [h]

theorem cancel_index_cases (b : OrderBook) (orderId : String) :
    (b.cancel orderId).index = mapDelete orderId b.index ∨ b.cancel orderId = b := by
  unfold OrderBook.cancel
  cases hg : mapGet orderId b.index with
  | none => right; rfl
  | some o =>
    dsimp only
    cases hl : mapGet o.price (b.sideLevels o.side) with
    | none => right; rfl
    | some lvl => left; rfl

/-- C5: cancellation is an idempotent no-op on unknown ids.  The
`(keysOf b.index).Nodup` hypothesis is the key-uniqueness guarantee of the
JS `Map` backing the id index. -/
theorem c5_cancel_idempotent (b : OrderBook) (orderId : String)
    (hn : (keysOf b.index).Nodup) :
    (mapGet orderId b.index = none → b.cancel orderId = b) ∧
    (b.cancel orderId).cancel orderId = b.cancel orderId := by
  refine ⟨cancel_of_get_none, ?_⟩
  rcases cancel_index_cases b orderId with h | h
  · exact cancel_of_get_none (h ▸ mapGet_mapDelete_self hn)
  · rw [h]; exact h

/-- Witness for C5 at a concrete book and id. -/
theorem c5_cancel_idempotent_witness :
    (keysOf (OrderBook.empty.add sB1).index).Nodup ∧
    ((mapGet "zzz" (OrderBook.empty.add sB1).index = none →
        (OrderBook.empty.add sB1).cancel "zzz" = OrderBook.empty.add sB1) ∧
      (((OrderBook.empty.add sB1).cancel "B1").cancel "B1"
        = (OrderBook.empty.add sB1).cancel "B1")) := by
  constructor
  · decide
  · constructor
    · exact (c5_cancel_idempotent (OrderBook.empty.add sB1) "zzz" (by decide)).1
    · exact (c5_cancel_idempotent (OrderBook.empty.add sB1) "B1" (by decide)).2

/-- C7: a TRADE event is never a valid input: in either mode it leaves the
book unchanged and produces no effect at all (in particular no WAL append
and no EventBus publish). -/
theorem c7_trade_input_ignored (bi si : String) (q p : Int) (mode : ProcessMode)
    (b : OrderBook) :
    (MatchingEngine.procTrace (.TRADE bi si q p) mode b).1 = b ∧
    walWrites (MatchingEngine.procTrace (.TRADE bi si q p) mode b).2 = [] ∧
    busWrites (MatchingEngine.procTrace (.TRADE bi si q p) mode b).2 = [] ∧
    (MatchingEngine.procTrace (.TRADE bi si q p) mode b).2 = [] :=
  ⟨rfl, rfl, rfl, rfl⟩

/-- C9: in live mode the WAL append of a NEW_ORDER is the very first effect,
the EventBus publish is second, the book insertion third, and every trade
execution the matching loop produces comes strictly later. -/
theorem c9_durability_precedes_mutation (o : Order) (b : OrderBook) :
    (MatchingEngine.procTrace (.NEW_ORDER o) .live b).2
      = Effect.walAppend (.NEW_ORDER o) :: Effect.busPublish (.NEW_ORDER o)
        :: Effect.bookAdd o :: (MatchingEngine.matchLoop .live (b.add o)).2 ∧
    ∀ i t, (MatchingEngine.procTrace (.NEW_ORDER o) .live b).2[i]?
        = some (Effect.tradeExec t) → 3 ≤ i := by
  refine ⟨rfl, ?_⟩
  intro i t h
  match i with
  | 0 => exact absurd h (by simp [MatchingEngine.procTrace])
  | 1 => exact absurd h (by simp [MatchingEngine.procTrace])
  | 2 => exact absurd h (by simp [MatchingEngine.procTrace])
  | n + 3 => omega

/-- C10: omitting the mode option resolves to live mode: `process` with no
options behaves exactly like `process` with an explicit live mode (same
book, same effect trace, hence the same WAL appends and publishes). -/
theorem c10_default_mode_is_live (e : Event) (b : OrderBook) :
    MatchingEngine.process e none b = MatchingEngine.process e (some .live) b := rfl

/-! ### Book structure lemmas -/

@[simp] theorem sideLevels_withIndex (b : OrderBook) (ix : List (String × Order)) (s : Side) :
    (b.withIndex ix).sideLevels s = b.sideLevels s := by
  cases s <;> rfl

theorem add_sideLevels_self (b : OrderBook) (o : Order) :
    (b.add o).sideLevels o.side
      = mapSet o.price ((mapGet o.price (b.sideLevels o.side)).getD [] ++ [o.id])
        (b.sideLevels o.side) := by
  cases hs : o.side <;>
    simp [OrderBook.add, OrderBook.sideLevels, OrderBook.setSide, hs]

theorem bestBuy_shape {b : OrderBook} {buy : Order} (h : b.bestBuy = some buy) :
    ∃ p fid rest, maxKey b.buys = some p ∧
      (mapGet p b.buys).getD [] = fid :: rest ∧ mapGet fid b.index = some buy := by
  unfold OrderBook.bestBuy at h
  cases hm : maxKey b.buys with
  | none => rw [hm] at h; exact absurd h (by simp)
  | some p =>
    rw [hm] at h
    dsimp only at h
    cases hl : (mapGet p b.buys).getD [] with
    | nil => rw [hl] at h; exact absurd h (by simp)
    | cons fid rest =>
      rw [hl] at h
      exact ⟨p, fid, rest, rfl, hl, h⟩

theorem bestSell_shape {b : OrderBook} {sell : Order} (h : b.bestSell = some sell) :
    ∃ p fid rest, minKey b.sells = some p ∧
      (mapGet p b.sells).getD [] = fid :: rest ∧ mapGet fid b.index = some sell := by
  unfold OrderBook.bestSell at h
  cases hm : minKey b.sells with
  | none => rw [hm] at h; exact absurd h (by simp)
  | some p =>
    rw [hm] at h
    dsimp only at h
    cases hl : (mapGet p b.sells).getD [] with
    | nil => rw [hl] at h; exact absurd h (by simp)
    | cons fid rest =>
      rw [hl] at h
      exact ⟨p, fid, rest, rfl, hl, h⟩

/-! ### C2: execution price -/

/-- C2 counterexample: in the spec's scenario the third command produces the
trade TRADE\x7bbuyId B1, sellId S2, qty 6, price 99\x7d — the price is the
incoming sell's 99, not the resting bid's 100 claimed by the spec. -/
theorem c2_counterexample :
    tradesOf scn2c.2 = [Event.TRADE "B1" "S2" 6 99] ∧
    Event.TRADE "B1" "S2" 6 100 ∉ tradesOf scn2c.2 := by
  constructor
  · decide
  · decide

/-- C2 (amended): every trade executes at the sell-side order's price (the
best ask's price — the resting order's price only when the aggressor is the
buy).  In the scenario the third command trades quantity 6 at price 99, the
bid is fully filled and removed, and SELL 4@99 rests. -/
theorem c2_trade_price_sell_side :
    (∀ (b : OrderBook) (x : Event × List String × OrderBook),
      MatchingEngine.matchStep b = some x →
      ∃ buy sell, b.bestBuy = some buy ∧ b.bestSell = some sell ∧
        x.1 = Event.TRADE buy.id sell.id (min buy.qty sell.qty) sell.price) ∧
    (tradesOf scn2c.2 = [Event.TRADE "B1" "S2" 6 99] ∧
      mapGet "B1" scn2c.1.index = none ∧
      mapGet "S2" scn2c.1.index = some { sS2 with qty := 4 } ∧
      scn2c.1.buys = [] ∧ scn2c.1.sells = [(99, ["S2"])]) := by
  constructor
  · intro b x h
    obtain ⟨buy, sell, hb, hs, -, hx⟩ := matchStep_some_shape h
    exact ⟨buy, sell, hb, hs, hx⟩
  · refine ⟨by decide, by decide, by decide, by decide, by decide⟩

/-! ### C3: price-time priority -/

/-- C3: FIFO price-time priority.  (i) Two same-side same-price insertions
queue in arrival order at the back of their level; (ii) the matching loop
always matches the order referenced by the *front* node of the best level;
(iii) in the spec's scenario the trade matches the first BUY's id F1, not
F2, and F2 remains resting with quantity 5. -/
theorem c3_price_time_priority :
    (∀ (b : OrderBook) (o₁ o₂ : Order), o₂.side = o₁.side → o₂.price = o₁.price →
      mapGet o₁.price (((b.add o₁).add o₂).sideLevels o₁.side)
        = some ((mapGet o₁.price (b.sideLevels o₁.side)).getD [] ++ [o₁.id, o₂.id])) ∧
    (∀ (b : OrderBook) (buy : Order), b.bestBuy = some buy →
      ∃ p fid rest, maxKey b.buys = some p ∧
        (mapGet p b.buys).getD [] = fid :: rest ∧ mapGet fid b.index = some buy) ∧
    (tradesOf scn3c.2 = [Event.TRADE "F1" "F3" 5 100] ∧
      mapGet "F1" scn3c.1.index = none ∧
      mapGet "F2" scn3c.1.index = some sF2) := by
  refine ⟨?_, fun b buy h => bestBuy_shape h, by decide, by decide, by decide⟩
  intro b o₁ o₂ hside hprice
  have h2 := add_sideLevels_self (b.add o₁) o₂
  rw [hside, hprice] at h2
  rw [h2, mapGet_mapSet_self, add_sideLevels_self, mapGet_mapSet_self]
  simp

/-! ### More association-list and level lemmas -/

@[simp] theorem levelIds_nil : levelIds [] = [] := rfl

@[simp] theorem levelIds_cons (e : Int × Level) (es : List (Int × Level)) :
    levelIds (e :: es) = e.2 ++ levelIds es := rfl

theorem mem_mapSet_cases {α β : Type} [DecidableEq α] {e : α × β} {k : α} {v : β}
    {l : List (α × β)} (h : e ∈ mapSet k v l) : e = (k, v) ∨ e ∈ l := by
  induction l with
  | nil => simp [mapSet] at h; exact Or.inl h
  | cons e' es ih =>
    by_cases hk : e'.1 = k
    · rw [mapSet, if_pos hk] at h
      rcases List.mem_cons.mp h with h | h
      · exact Or.inl h
      · exact Or.inr (List.mem_cons_of_mem e' h)
    · rw [mapSet, if_neg hk] at h
      rcases List.mem_cons.mp h with h | h
      · exact Or.inr (h ▸ List.mem_cons_self e' es)
      · rcases ih h with h | h
        · exact Or.inl h
        · exact Or.inr (List.mem_cons_of_mem e' h)

theorem mem_mapDelete_ne_key {α β : Type} [DecidableEq α] {e : α × β} {k : α}
    {l : List (α × β)} (hn : (keysOf l).Nodup) (h : e ∈ mapDelete k l) : e.1 ≠ k := by
  induction l with
  | nil => simp [mapDelete] at h
  | cons e' es ih =>
    simp only [keysOf_cons, List.nodup_cons] at hn
    by_cases hk : e'.1 = k
    · rw [mapDelete, if_pos hk] at h
      intro he
      exact hn.1 (hk ▸ he ▸ List.mem_map_of_mem (·.1) h)
    · rw [mapDelete, if_neg hk] at h
      rcases List.mem_cons.mp h with h | h
      · exact h ▸ hk
      · exact ih hn.2 h

theorem mapGet_some_mem_keys {α β : Type} [DecidableEq α] {k : α} {v : β}
    {l : List (α × β)} (h : mapGet k l = some v) : k ∈ keysOf l :=
  mapGet_isSome.mp (h ▸ rfl)

theorem length_mapDelete_lt {α β : Type} [DecidableEq α] {k : α} {l : List (α × β)}
    (h : k ∈ keysOf l) : (mapDelete k l).length < l.length := by
  induction l with
  | nil => simp at h
  | cons e es ih =>
    by_cases hk : e.1 = k
    · simp [mapDelete, hk]
    · have h' : k ∈ keysOf es := by
        rcases List.mem_cons.mp (by simpa using h) with h' | h'
        · exact absurd h'.symm hk
        · exact h'
      simp only [mapDelete, if_neg hk, List.length_cons]
      exact Nat.succ_lt_succ (ih h')

theorem erase_eq_nil {l : List String} {x : String} (h : l.erase x = []) :
    l = [] ∨ l = [x] := by
  cases l with
  | nil => exact Or.inl rfl
  | cons a t =>
    by_cases ha : a = x
    · subst ha
      rw [List.erase_cons_head] at h
      exact Or.inr (h ▸ rfl)
    · rw [List.erase_cons_tail (by simpa using ha)] at h
      simp at h

theorem sublist_levelIds {L' L : List (Int × Level)} (h : L'.Sublist L) :
    (levelIds L').Sublist (levelIds L) := by
  induction h with
  | slnil => exact List.Sublist.refl _
  | cons e _ ih =>
    exact ih.trans (by simpa using List.sublist_append_right e.2 _)
  | cons₂ e _ ih => simpa using ih.append_left e.2

theorem mem_levelIds_of_mem {i : String} {lvl : Level} {L : List (Int × Level)}
    {p : Int} (hL : (p, lvl) ∈ L) (hi : i ∈ lvl) : i ∈ levelIds L := by
  simp only [levelIds, List.mem_flatten]
  exact ⟨lvl, List.mem_map.mpr ⟨(p, lvl), hL, rfl⟩, hi⟩

theorem levelIds_mapSet_split {L : List (Int × Level)} {p : Int} {lvl : Level}
    (h : mapGet p L = some lvl) (v : Level) :
    ∃ A B, levelIds L = A ++ (lvl ++ B) ∧ levelIds (mapSet p v L) = A ++ (v ++ B) := by
  induction L with
  | nil => simp [mapGet] at h
  | cons e es ih =>
    by_cases hk : e.1 = p
    · rw [mapGet, if_pos hk] at h
      injection h with h
      exact ⟨[], levelIds es, by simp [h],
        by simp [mapSet, hk]⟩
    · rw [mapGet, if_neg hk] at h
      obtain ⟨A, B, h1, h2⟩ := ih h
      exact ⟨e.2 ++ A, B, by simp [h1],
        by simp [mapSet, hk, h2]⟩

theorem levelIds_mapDelete_split {L : List (Int × Level)} {p : Int} {lvl : Level}
    (h : mapGet p L = some lvl) :
    ∃ A B, levelIds L = A ++ (lvl ++ B) ∧ levelIds (mapDelete p L) = A ++ B := by
  induction L with
  | nil => simp [mapGet] at h
  | cons e es ih =>
    by_cases hk : e.1 = p
    · rw [mapGet, if_pos hk] at h
      injection h with h
      exact ⟨[], levelIds es, by simp [h], by simp [mapDelete, hk]⟩
    · rw [mapGet, if_neg hk] at h
      obtain ⟨A, B, h1, h2⟩ := ih h
      exact ⟨e.2 ++ A, B, by simp [h1],
        by simp [mapDelete, hk, h2]⟩

theorem levelIds_mapSet_notMem {L : List (Int × Level)} {p : Int} (v : Level)
    (h : mapGet p L = none) : levelIds (mapSet p v L) = levelIds L ++ v := by
  induction L with
  | nil => simp [mapSet]
  | cons e es ih =>
    by_cases hk : e.1 = p
    · rw [mapGet, if_pos hk] at h; exact absurd h (by simp)
    · rw [mapGet, if_neg hk] at h
      simp [mapSet, hk, ih h]

/-! ### Index-update (`qty -=`) lemmas -/

theorem updQty_fst (oid : String) (q : Int) (e : String × Order) :
    (updQty oid q e).1 = e.1 := by
  unfold updQty
  split <;> rfl

theorem keysOf_updIndex (oid : String) (q : Int) (ix : List (String × Order)) :
    keysOf (ix.map (updQty oid q)) = keysOf ix := by
  induction ix with
  | nil => rfl
  | cons e es ih => simp [updQty_fst, ih]

theorem mapGet_updIndex (k oid : String) (q : Int) (ix : List (String × Order)) :
    mapGet k (ix.map (updQty oid q))
      = if k = oid then (mapGet k ix).map (fun v => { v with qty := v.qty - q })
        else mapGet k ix := by
  induction ix with
  | nil => simp [mapGet]
  | cons e es ih =>
    by_cases he : e.1 = k
    · subst he
      by_cases ho : e.1 = oid
      · subst ho
        simp [mapGet, updQty]
      · simp [mapGet, updQty, ho]
    · by_cases ho : e.1 = oid
      · subst ho
        simp [mapGet, updQty, he, Ne.symm he, ih]
      · simp [mapGet, updQty, he, ho, ih]

theorem map_updQty_of_not_mem {oid : String} (q : Int) {ix : List (String × Order)}
    (h : oid ∉ keysOf ix) : ix.map (updQty oid q) = ix := by
  induction ix with
  | nil => rfl
  | cons e es ih =>
    simp only [keysOf_cons, List.mem_cons] at h
    push_neg at h
    simp [updQty, Ne.symm h.1, ih h.2]

theorem sumQty_updIndex {ix : List (String × Order)} {k : String} {v : Order}
    (hn : (keysOf ix).Nodup) (hg : mapGet k ix = some v) (q : Int) :
    ((ix.map (updQty k q)).map (fun e => e.2.qty)).sum
      = (ix.map (fun e => e.2.qty)).sum - q := by
  induction ix with
  | nil => simp [mapGet] at hg
  | cons e es ih =>
    simp only [keysOf_cons, List.nodup_cons] at hn
    by_cases he : e.1 = k
    · rw [mapGet, if_pos he] at hg
      injection hg with hg
      have hes : es.map (updQty k q) = es :=
        map_updQty_of_not_mem q (he ▸ hn.1)
      simp only [List.map_cons, List.sum_cons, hes, updQty, if_pos he]
      ring
    · rw [mapGet, if_neg he] at hg
      have hsum := ih hn.2 hg
      simp only [List.map_cons, List.sum_cons, updQty, if_neg he]
      rw [hsum]
      ring

theorem sumQty_mapDelete {ix : List (String × Order)} {k : String} {v : Order}
    (hn : (keysOf ix).Nodup) (hg : mapGet k ix = some v) :
    ((mapDelete k ix).map (fun e => e.2.qty)).sum
      = (ix.map (fun e => e.2.qty)).sum - v.qty := by
  induction ix with
  | nil => simp [mapGet] at hg
  | cons e es ih =>
    simp only [keysOf_cons, List.nodup_cons] at hn
    by_cases he : e.1 = k
    · rw [mapGet, if_pos he] at hg
      injection hg with hg
      simp only [mapDelete, if_pos he, List.map_cons, List.sum_cons, hg]
      ring
    · rw [mapGet, if_neg he] at hg
      have hsum := ih hn.2 hg
      simp only [mapDelete, if_neg he, List.map_cons, List.sum_cons]
      rw [hsum]
      ring

/-! ### Side-update lemmas -/

@[simp] theorem sideLevels_setSide_self (b : OrderBook) (s : Side) (ls : List (Int × Level)) :
    (b.setSide s ls).sideLevels s = ls := by
  cases s <;> rfl

theorem sideLevels_setSide_other (b : OrderBook) {s' s : Side} (ls : List (Int × Level))
    (h : s' ≠ s) : (b.setSide s ls).sideLevels s' = b.sideLevels s' := by
  cases s <;> cases s' <;> first | rfl | exact absurd rfl h

theorem add_index (b : OrderBook) (o : Order) :
    (b.add o).index = mapSet o.id o b.index := by
  simp [OrderBook.add]

theorem add_sideLevels_other (b : OrderBook) (o : Order) {s' : Side}
    (h : s' ≠ o.side) : (b.add o).sideLevels s' = b.sideLevels s' := by
  cases ho : o.side <;> cases s' <;>
    simp_all [OrderBook.add, OrderBook.setSide, OrderBook.sideLevels]

theorem levelIds_addLevel (L : List (Int × Level)) (p : Int) (x : String) :
    (levelIds (mapSet p ((mapGet p L).getD [] ++ [x]) L)).Perm (x :: levelIds L) := by
  cases hmg : mapGet p L with
  | none =>
    rw [Option.getD_none, List.nil_append, levelIds_mapSet_notMem _ hmg]
    exact List.perm_append_comm
  | some lvl =>
    rw [Option.getD_some]
    obtain ⟨A, B, h1, h2⟩ := levelIds_mapSet_split hmg (lvl ++ [x])
    rw [h1, h2]
    have e1 : A ++ ((lvl ++ [x]) ++ B) = (A ++ lvl) ++ (x :: B) := by simp
    have e2 : x :: (A ++ (lvl ++ B)) = x :: ((A ++ lvl) ++ B) := by simp
    rw [e1, e2]
    exact List.perm_middle

theorem allIds_add_perm (b : OrderBook) (o : Order) :
    (allIds (b.add o)).Perm (o.id :: allIds b) := by
  cases hs : o.side with
  | BUY =>
    have h1 : (b.add o).buys
        = mapSet o.price ((mapGet o.price b.buys).getD [] ++ [o.id]) b.buys := by
      have := add_sideLevels_self b o
      rw [hs] at this
      exact this
    have h2 : (b.add o).sells = b.sells :=
      @add_sideLevels_other b o Side.SELL (by rw [hs]; simp)
    show ((levelIds (b.add o).buys) ++ levelIds (b.add o).sells).Perm _
    rw [h1, h2]
    exact (levelIds_addLevel b.buys o.price o.id).append_right _
  | SELL =>
    have h1 : (b.add o).sells
        = mapSet o.price ((mapGet o.price b.sells).getD [] ++ [o.id]) b.sells := by
      have := add_sideLevels_self b o
      rw [hs] at this
      exact this
    have h2 : (b.add o).buys = b.buys :=
      @add_sideLevels_other b o Side.BUY (by rw [hs]; simp)
    show ((levelIds (b.add o).buys) ++ levelIds (b.add o).sells).Perm _
    rw [h1, h2]
    exact ((levelIds_addLevel b.sells o.price o.id).append_left _).trans
      List.perm_middle

/-! ### Invariant preservation: add -/

theorem WF_add {b : OrderBook} {o : Order} (hwf : WF b)
    (hfresh : mapGet o.id b.index = none) : WF (b.add o) := by
  obtain ⟨hbOk, hsOk, hAll, hIxKeys, hPoint, hQueued⟩ := hwf
  have hOk : ∀ s, levelsOk (b.sideLevels s) := by
    intro s
    cases s
    · exact hbOk
    · exact hsOk
  have hfresh' : o.id ∉ keysOf b.index := mapGet_eq_none.mp hfresh
  have hfreshAll : o.id ∉ allIds b := fun hmem =>
    hfresh' (mapGet_isSome.mp (hQueued o.id hmem))
  have hLOk : ∀ s, levelsOk ((b.add o).sideLevels s) := by
    intro s
    by_cases hss : s = o.side
    · subst hss
      rw [add_sideLevels_self]
      constructor
      · by_cases hp : o.price ∈ keysOf (b.sideLevels o.side)
        · rw [keysOf_mapSet_mem _ hp]
          exact (hOk o.side).1
        · rw [keysOf_mapSet_notMem _ hp]
          simp [List.nodup_append, (hOk o.side).1, hp]
      · intro pl hpl
        rcases mem_mapSet_cases hpl with h | h
        · rw [h]
          simp
        · exact (hOk o.side).2 pl h
    · rw [add_sideLevels_other b o hss]
      exact hOk s
  refine ⟨hLOk .BUY, hLOk .SELL, ?_, ?_, ?_, ?_⟩
  · exact (allIds_add_perm b o).nodup_iff.mpr (List.nodup_cons.mpr ⟨hfreshAll, hAll⟩)
  · rw [add_index, keysOf_mapSet_notMem _ hfresh']
    simp [List.nodup_append, hIxKeys, hfresh']
  · intro e he
    rw [add_index] at he
    rcases mem_mapSet_cases he with h | h
    · subst h
      refine ⟨rfl, ?_⟩
      rw [add_sideLevels_self, mapGet_mapSet_self]
      simp
    · obtain ⟨hid, hmemb⟩ := hPoint e h
      refine ⟨hid, ?_⟩
      by_cases hes : e.2.side = o.side
      · rw [hes, add_sideLevels_self]
        by_cases hep : e.2.price = o.price
        · rw [hep, mapGet_mapSet_self]
          have hq : e.1 ∈ (mapGet o.price (b.sideLevels o.side)).getD [] := by
            rw [← hep, ← hes]
            exact hmemb
          simp only [Option.getD_some]
          exact List.mem_append_left _ hq
        · rw [mapGet_mapSet_ne _ _ hep, ← hes]
          exact hmemb
      · rw [add_sideLevels_other b o hes]
        exact hmemb
  · intro id hid
    rcases List.mem_cons.mp ((allIds_add_perm b o).mem_iff.mp hid) with h | h
    · subst h
      rw [add_index, mapGet_mapSet_self]
      rfl
    · by_cases hne : id = o.id
      · subst hne
        rw [add_index, mapGet_mapSet_self]
        rfl
      · rw [add_index, mapGet_mapSet_ne _ _ hne]
        exact hQueued id h

/-! ### Invariant preservation: cancel -/

@[simp] theorem allIds_withIndex (b : OrderBook) (ix : List (String × Order)) :
    allIds (b.withIndex ix) = allIds b := rfl

theorem allIds_setSide_buy (b : OrderBook) (ls : List (Int × Level)) :
    allIds (b.setSide .BUY ls) = levelIds ls ++ levelIds b.sells := rfl

theorem allIds_setSide_sell (b : OrderBook) (ls : List (Int × Level)) :
    allIds (b.setSide .SELL ls) = levelIds b.buys ++ levelIds ls := rfl

theorem levelIds_update_split {L : List (Int × Level)} {p : Int} {lvl : Level}
    (h : mapGet p L = some lvl) (v : Level) :
    ∃ A B, levelIds L = A ++ (lvl ++ B) ∧ levelIds (mapSet p v L) = A ++ (v ++ B) ∧
      levelIds (mapDelete p L) = A ++ B := by
  induction L with
  | nil => simp [mapGet] at h
  | cons e es ih =>
    by_cases hk : e.1 = p
    · rw [mapGet, if_pos hk] at h
      injection h with h
      exact ⟨[], levelIds es, by simp [h], by simp [mapSet, hk],
        by simp [mapDelete, hk]⟩
    · rw [mapGet, if_neg hk] at h
      obtain ⟨A, B, h1, h2, h3⟩ := ih h
      exact ⟨e.2 ++ A, B, by simp [h1], by simp [mapSet, hk, h2],
        by simp [mapDelete, hk, h3]⟩

theorem cancel_book_eq {b : OrderBook} {orderId : String} {o : Order} {lvl : Level}
    (hg : mapGet orderId b.index = some o)
    (hl : mapGet o.price (b.sideLevels o.side) = some lvl) :
    b.cancel orderId
      = (b.setSide o.side (if lvl.erase orderId = [] then
            mapDelete o.price (b.sideLevels o.side)
          else mapSet o.price (lvl.erase orderId) (b.sideLevels o.side))).withIndex
          (mapDelete orderId b.index) := by
  unfold OrderBook.cancel
  rw [hg]
  dsimp only
  rw [hl]

theorem cancel_of_level_none {b : OrderBook} {orderId : String} {o : Order}
    (hg : mapGet orderId b.index = some o)
    (hl : mapGet o.price (b.sideLevels o.side) = none) :
    b.cancel orderId = b := by
  unfold OrderBook.cancel
  rw [hg]
  dsimp only
  rw [hl]

theorem side_cases {x y : Side} (h : x ≠ y) :
    (x = .BUY ∧ y = .SELL) ∨ (x = .SELL ∧ y = .BUY) := by
  cases x <;> cases y <;> simp_all

theorem allIds_setSide_sublist {b : OrderBook} {s : Side} {ls : List (Int × Level)}
    (h : (levelIds ls).Sublist (levelIds (b.sideLevels s))) :
    (allIds (b.setSide s ls)).Sublist (allIds b) := by
  cases s
  · exact h.append (List.Sublist.refl _)
  · exact (List.Sublist.refl _).append h

theorem not_mem_allIds_setSide {b : OrderBook} {s : Side} {ls : List (Int × Level)}
    {a : String} (h1 : a ∉ levelIds ls)
    (h2 : ∀ s', s' ≠ s → a ∉ levelIds (b.sideLevels s')) :
    a ∉ allIds (b.setSide s ls) := by
  cases s
  · intro hmem
    rcases List.mem_append.mp hmem with h | h
    · exact h1 h
    · exact h2 .SELL (by simp) h
  · intro hmem
    rcases List.mem_append.mp hmem with h | h
    · exact h2 .BUY (by simp) h
    · exact h1 h

theorem WF_cancel {b : OrderBook} (hwf : WF b) (orderId : String) :
    WF (b.cancel orderId) := by
  obtain ⟨hbOk, hsOk, hAll, hIxKeys, hPoint, hQueued⟩ := hwf
  have hOk : ∀ s, levelsOk (b.sideLevels s) := by
    intro s
    cases s
    · exact hbOk
    · exact hsOk
  have hNodupSide : ∀ s, (levelIds (b.sideLevels s)).Nodup := by
    intro s
    cases s
    · exact (List.nodup_append.mp hAll).1
    · exact (List.nodup_append.mp hAll).2.1
  have hDisj : (levelIds b.buys).Disjoint (levelIds b.sells) :=
    (List.nodup_append.mp hAll).2.2
  cases hg : mapGet orderId b.index with
  | none =>
    rw [cancel_of_get_none hg]
    exact ⟨hbOk, hsOk, hAll, hIxKeys, hPoint, hQueued⟩
  | some o =>
    cases hl : mapGet o.price (b.sideLevels o.side) with
    | none =>
      rw [cancel_of_level_none hg hl]
      exact ⟨hbOk, hsOk, hAll, hIxKeys, hPoint, hQueued⟩
    | some lvl =>
      rw [cancel_book_eq hg hl]
      have hmemo : (orderId, o) ∈ b.index := mapGet_mem hg
      have hinlvl : orderId ∈ lvl := by
        have h := (hPoint _ hmemo).2
        rw [hl] at h
        simpa using h
      have hlvlmem : (o.price, lvl) ∈ b.sideLevels o.side := mapGet_mem hl
      have hlvlne : lvl ≠ [] := (hOk o.side).2 _ hlvlmem
      obtain ⟨A, B, hAB, hSet, hDel⟩ := levelIds_update_split hl (lvl.erase orderId)
      have hSideNodup := hNodupSide o.side
      rw [hAB] at hSideNodup
      have hlvlNodup : lvl.Nodup :=
        (List.nodup_append.mp (List.nodup_append.mp hSideNodup).2.1).1
      have hLVsub : (levelIds (if lvl.erase orderId = [] then
            mapDelete o.price (b.sideLevels o.side)
          else mapSet o.price (lvl.erase orderId) (b.sideLevels o.side))).Sublist
          (levelIds (b.sideLevels o.side)) := by
        split
        · rw [hDel, hAB]
          exact (List.Sublist.refl A).append (List.sublist_append_right lvl B)
        · rw [hSet, hAB]
          exact (List.Sublist.refl A).append
            ((List.erase_sublist orderId lvl).append (List.Sublist.refl B))
      have hOrderNotLV : orderId ∉ levelIds (if lvl.erase orderId = [] then
            mapDelete o.price (b.sideLevels o.side)
          else mapSet o.price (lvl.erase orderId) (b.sideLevels o.side)) := by
        have hnA : orderId ∉ A := fun hmem =>
          (List.disjoint_of_nodup_append hSideNodup) hmem (List.mem_append_left B hinlvl)
        have hnB : orderId ∉ B := fun hmem =>
          (List.disjoint_of_nodup_append (List.nodup_append.mp hSideNodup).2.1) hinlvl hmem
        split
        · rw [hDel]
          simp [List.mem_append, hnA, hnB]
        · rw [hSet]
          intro hmem
          rcases List.mem_append.mp hmem with h | h
          · exact hnA h
          · rcases List.mem_append.mp h with h | h
            · exact absurd ((hlvlNodup.mem_erase_iff).mp h).1 (by simp)
            · exact hnB h
      have hLVOk : levelsOk (if lvl.erase orderId = [] then
            mapDelete o.price (b.sideLevels o.side)
          else mapSet o.price (lvl.erase orderId) (b.sideLevels o.side)) := by
        constructor
        · split
          · exact List.Nodup.sublist
              (List.Sublist.map _ (mapDelete_sublist o.price _)) (hOk o.side).1
          · rw [keysOf_mapSet_mem _ (mapGet_some_mem_keys hl)]
            exact (hOk o.side).1
        · split
          next hnil =>
            intro pl hpl
            exact (hOk o.side).2 pl ((mapDelete_sublist _ _).subset hpl)
          next hnil =>
            intro pl hpl
            rcases mem_mapSet_cases hpl with h | h
            · rw [h]
              simpa using hnil
            · exact (hOk o.side).2 pl h
      have hpoint' : ∀ e : String × Order, e ∈ b.index → e.1 ≠ orderId →
          e.2.side = o.side →
          e.1 ∈ (mapGet e.2.price (if lvl.erase orderId = [] then
              mapDelete o.price (b.sideLevels o.side)
            else mapSet o.price (lvl.erase orderId) (b.sideLevels o.side))).getD [] := by
        intro e he hne hes
        have hm := (hPoint e he).2
        rw [hes] at hm
        by_cases hep : e.2.price = o.price
        · rw [hep] at hm ⊢
          rw [hl] at hm
          simp only [Option.getD_some] at hm
          split
          next hnil =>
            rcases erase_eq_nil hnil with h | h
            · exact absurd h hlvlne
            · rw [h] at hm
              simp at hm
              exact absurd hm hne
          next hnil =>
            rw [mapGet_mapSet_self]
            simp only [Option.getD_some]
            exact (List.mem_erase_of_ne hne).mpr hm
        · split
          · rw [mapGet_mapDelete_ne _ hep]
            exact hm
          · rw [mapGet_mapSet_ne _ _ hep]
            exact hm
      have hOtherNot : ∀ s', s' ≠ o.side → orderId ∉ levelIds (b.sideLevels s') := by
        intro s' hs' hmem
        have hmemSide : orderId ∈ levelIds (b.sideLevels o.side) :=
          mem_levelIds_of_mem hlvlmem hinlvl
        rcases side_cases hs' with ⟨h1, h2⟩ | ⟨h1, h2⟩
        · rw [h1] at hmem
          rw [h2] at hmemSide
          exact hDisj hmem hmemSide
        · rw [h1] at hmem
          rw [h2] at hmemSide
          exact hDisj hmemSide hmem
      -- assemble the invariant for the updated book
      refine ⟨?_, ?_, ?_, ?_, ?_, ?_⟩
      · show levelsOk (((b.setSide o.side _).withIndex _).sideLevels .BUY)
        by_cases hss : Side.BUY = o.side
        · rw [sideLevels_withIndex, ← hss, sideLevels_setSide_self]
          rw [hss]
          exact hLVOk
        · rw [sideLevels_withIndex, sideLevels_setSide_other _ _ hss]
          exact hOk .BUY
      · show levelsOk (((b.setSide o.side _).withIndex _).sideLevels .SELL)
        by_cases hss : Side.SELL = o.side
        · rw [sideLevels_withIndex, ← hss, sideLevels_setSide_self]
          rw [hss]
          exact hLVOk
        · rw [sideLevels_withIndex, sideLevels_setSide_other _ _ hss]
          exact hOk .SELL
      · rw [allIds_withIndex]
        exact List.Nodup.sublist (allIds_setSide_sublist hLVsub) hAll
      · exact List.Nodup.sublist
          (List.Sublist.map _ (mapDelete_sublist orderId _)) hIxKeys
      · intro e he
        rw [withIndex_index] at he
        have hmem : e ∈ b.index := (mapDelete_sublist _ _).subset he
        have hne : e.1 ≠ orderId := mem_mapDelete_ne_key hIxKeys he
        refine ⟨(hPoint e hmem).1, ?_⟩
        by_cases hes : e.2.side = o.side
        · rw [hes, sideLevels_withIndex, sideLevels_setSide_self]
          exact hpoint' e hmem hne hes
        · rw [sideLevels_withIndex, sideLevels_setSide_other _ _ hes]
          exact (hPoint e hmem).2
      · intro id' hid'
        rw [allIds_withIndex] at hid'
        have hid'b : id' ∈ allIds b := (allIds_setSide_sublist hLVsub).subset hid'
        have hne : id' ≠ orderId := by
          intro h
          subst h
          exact not_mem_allIds_setSide hOrderNotLV hOtherNot hid'
        rw [withIndex_index, mapGet_mapDelete_ne _ hne]
        exact hQueued id' hid'b

/-! ### Invariant preservation: the matching iteration -/

theorem WF_updIndex {b : OrderBook} (hwf : WF b) (oid : String) (q : Int) :
    WF (b.withIndex (b.index.map (updQty oid q))) := by
  obtain ⟨hbOk, hsOk, hAll, hIxKeys, hPoint, hQueued⟩ := hwf
  refine ⟨hbOk, hsOk, hAll, ?_, ?_, ?_⟩
  · rw [withIndex_index, keysOf_updIndex]
    exact hIxKeys
  · intro e he
    rw [withIndex_index] at he
    obtain ⟨e₀, he₀, rfl⟩ := List.mem_map.mp he
    unfold updQty
    split
    · exact ⟨(hPoint e₀ he₀).1, by simpa using (hPoint e₀ he₀).2⟩
    · exact ⟨(hPoint e₀ he₀).1, by simpa using (hPoint e₀ he₀).2⟩
  · intro id hid
    rw [withIndex_index, mapGet_updIndex]
    split
    · simpa using hQueued id hid
    · exact hQueued id hid

theorem WF_matchStep {b : OrderBook} {x : Event × List String × OrderBook}
    (hwf : WF b) (h : MatchingEngine.matchStep b = some x) : WF x.2.2 := by
  unfold MatchingEngine.matchStep at h
  cases hb : b.bestBuy with
  | none => simp only [hb] at h; cases b.bestSell <;> simp at h
  | some buy =>
    cases hs : b.bestSell with
    | none => simp only [hb, hs] at h; simp at h
    | some sell =>
      simp only [hb, hs] at h
      by_cases hp : buy.price < sell.price
      · rw [if_pos hp] at h
        exact absurd h (by simp)
      · rw [if_neg hp] at h
        have hx := Option.some.inj h
        subst hx
        dsimp only
        have hwf2 := WF_updIndex
          (WF_updIndex hwf buy.id (min buy.qty sell.qty)) sell.id (min buy.qty sell.qty)
        split_ifs with h1 h2 h3
        · exact WF_cancel (WF_cancel hwf2 buy.id) sell.id
        · exact WF_cancel hwf2 sell.id
        · exact WF_cancel hwf2 buy.id
        · exact hwf2

theorem WF_empty : WF OrderBook.empty := by decide

/-- C6: the order-book structural invariant (no empty price level persists,
unique price keys per side, every queued id queued exactly once overall and
indexed, every index entry keyed by its order's id and queued in the level
for its own side and price) holds for the empty book and is preserved by add
with a fresh id, by cancel, and by each matching-loop iteration. -/
theorem c6_book_invariant :
    WF OrderBook.empty ∧
    (∀ (b : OrderBook) (o : Order), WF b → mapGet o.id b.index = none → WF (b.add o)) ∧
    (∀ (b : OrderBook) (orderId : String), WF b → WF (b.cancel orderId)) ∧
    (∀ (b : OrderBook) (x : Event × List String × OrderBook), WF b →
      MatchingEngine.matchStep b = some x → WF x.2.2) :=
  ⟨WF_empty, fun _ _ hwf hf => WF_add hwf hf, fun _ orderId hwf => WF_cancel hwf orderId,
    fun _ _ hwf h => WF_matchStep hwf h⟩

/-! ### The best pair under the invariant -/

theorem bestBuy_mem {b : OrderBook} {buy : Order} (hwf : WF b)
    (h : b.bestBuy = some buy) :
    mapGet buy.id b.index = some buy ∧ buy.id ∈ levelIds b.buys := by
  obtain ⟨p, fid, rest, hm, hl, hg⟩ := bestBuy_shape h
  have hmem : (fid, buy) ∈ b.index := mapGet_mem hg
  have hid : buy.id = fid := (hwf.2.2.2.2.1 _ hmem).1
  have hlv : mapGet p b.buys = some (fid :: rest) := by
    cases hmg : mapGet p b.buys with
    | none => rw [hmg] at hl; simp at hl
    | some lvl =>
      rw [hmg] at hl
      simp only [Option.getD_some] at hl
      rw [hl]
  have hflat : fid ∈ levelIds b.buys :=
    mem_levelIds_of_mem (mapGet_mem hlv) (by simp)
  exact ⟨hid ▸ hg, hid ▸ hflat⟩

theorem bestSell_mem {b : OrderBook} {sell : Order} (hwf : WF b)
    (h : b.bestSell = some sell) :
    mapGet sell.id b.index = some sell ∧ sell.id ∈ levelIds b.sells := by
  obtain ⟨p, fid, rest, hm, hl, hg⟩ := bestSell_shape h
  have hmem : (fid, sell) ∈ b.index := mapGet_mem hg
  have hid : sell.id = fid := (hwf.2.2.2.2.1 _ hmem).1
  have hlv : mapGet p b.sells = some (fid :: rest) := by
    cases hmg : mapGet p b.sells with
    | none => rw [hmg] at hl; simp at hl
    | some lvl =>
      rw [hmg] at hl
      simp only [Option.getD_some] at hl
      rw [hl]
  have hflat : fid ∈ levelIds b.sells :=
    mem_levelIds_of_mem (mapGet_mem hlv) (by simp)
  exact ⟨hid ▸ hg, hid ▸ hflat⟩

theorem bestBuy_bestSell_ne {b : OrderBook} {buy sell : Order} (hwf : WF b)
    (hb : b.bestBuy = some buy) (hs : b.bestSell = some sell) :
    buy.id ≠ sell.id := by
  have h1 := (bestBuy_mem hwf hb).2
  have h2 := (bestSell_mem hwf hs).2
  have hDisj : (levelIds b.buys).Disjoint (levelIds b.sells) :=
    (List.nodup_append.mp hwf.2.2.1).2.2
  intro he
  exact hDisj h1 (he ▸ h2)

theorem cancel_index_of_WF {b : OrderBook} {orderId : String} {o : Order}
    (hwf : WF b) (hg : mapGet orderId b.index = some o) :
    (b.cancel orderId).index = mapDelete orderId b.index := by
  have hmem := mapGet_mem hg
  have hq := (hwf.2.2.2.2.1 _ hmem).2
  cases hl : mapGet o.price (b.sideLevels o.side) with
  | none => rw [hl] at hq; simp at hq
  | some lvl => rw [cancel_book_eq hg hl, withIndex_index]

@[simp] theorem withIndex_withIndex (b : OrderBook) (ix ix' : List (String × Order)) :
    (b.withIndex ix).withIndex ix' = b.withIndex ix' := rfl

/-- Full anatomy of one successful matching iteration on a well-formed book:
the traded quantity is the minimum of the two remaining quantities, each of
the two matched orders' remaining quantities decreases by exactly that
quantity (an order reaching zero is removed from the index, one keeping a
positive remainder stays with exactly the decremented quantity), all other
orders are untouched, the number of resting orders strictly decreases, and
the total resting quantity decreases by exactly twice the traded quantity. -/
theorem matchStep_anatomy {b : OrderBook} {x : Event × List String × OrderBook}
    (hwf : WF b) (h : MatchingEngine.matchStep b = some x) :
    ∃ buy sell, b.bestBuy = some buy ∧ b.bestSell = some sell ∧
      sell.price ≤ buy.price ∧
      x.1 = Event.TRADE buy.id sell.id (min buy.qty sell.qty) sell.price ∧
      (buy.qty - min buy.qty sell.qty = 0 → mapGet buy.id x.2.2.index = none) ∧
      (buy.qty - min buy.qty sell.qty ≠ 0 →
        mapGet buy.id x.2.2.index
          = some { buy with qty := buy.qty - min buy.qty sell.qty }) ∧
      (sell.qty - min buy.qty sell.qty = 0 → mapGet sell.id x.2.2.index = none) ∧
      (sell.qty - min buy.qty sell.qty ≠ 0 →
        mapGet sell.id x.2.2.index
          = some { sell with qty := sell.qty - min buy.qty sell.qty }) ∧
      (∀ e ∈ x.2.2.index, e.1 ≠ buy.id → e.1 ≠ sell.id → mapGet e.1 b.index = some e.2) ∧
      x.2.2.index.length < b.index.length ∧
      totalQty x.2.2 = totalQty b - 2 * min buy.qty sell.qty := by
  unfold MatchingEngine.matchStep at h
  cases hb : b.bestBuy with
  | none => simp only [hb] at h; cases b.bestSell <;> simp at h
  | some buy =>
    cases hs : b.bestSell with
    | none => simp only [hb, hs] at h; simp at h
    | some sell =>
      simp only [hb, hs] at h
      by_cases hp : buy.price < sell.price
      · rw [if_pos hp] at h
        exact absurd h (by simp)
      · rw [if_neg hp] at h
        have hx := Option.some.inj h
        subst hx
        dsimp only
        simp only [withIndex_index, withIndex_withIndex]
        have hne : buy.id ≠ sell.id := bestBuy_bestSell_ne hwf hb hs
        have hgb := (bestBuy_mem hwf hb).1
        have hgs := (bestSell_mem hwf hs).1
        have hKeys : (keysOf b.index).Nodup := hwf.2.2.2.1
        have hgb2 : mapGet buy.id
            ((b.index.map (updQty buy.id (min buy.qty sell.qty))).map
              (updQty sell.id (min buy.qty sell.qty)))
            = some { buy with qty := buy.qty - min buy.qty sell.qty } := by
          rw [mapGet_updIndex, if_neg hne, mapGet_updIndex, if_pos rfl, hgb]
          rfl
        have hgs2 : mapGet sell.id
            ((b.index.map (updQty buy.id (min buy.qty sell.qty))).map
              (updQty sell.id (min buy.qty sell.qty)))
            = some { sell with qty := sell.qty - min buy.qty sell.qty } := by
          rw [mapGet_updIndex, if_pos rfl, mapGet_updIndex, if_neg (Ne.symm hne), hgs]
          rfl
        have hwf2 : WF (b.withIndex
            ((b.index.map (updQty buy.id (min buy.qty sell.qty))).map
              (updQty sell.id (min buy.qty sell.qty)))) := by
          have h2 := WF_updIndex (WF_updIndex hwf buy.id (min buy.qty sell.qty))
            sell.id (min buy.qty sell.qty)
          simpa [withIndex_index, withIndex_withIndex] using h2
        have hKeys2 : (keysOf
            ((b.index.map (updQty buy.id (min buy.qty sell.qty))).map
              (updQty sell.id (min buy.qty sell.qty)))).Nodup := by
          simp only [keysOf_updIndex]
          exact hKeys
        have hlen2 : ((b.index.map (updQty buy.id (min buy.qty sell.qty))).map
            (updQty sell.id (min buy.qty sell.qty))).length = b.index.length := by
          simp
        have htq2 : (((b.index.map (updQty buy.id (min buy.qty sell.qty))).map
              (updQty sell.id (min buy.qty sell.qty))).map (fun e => e.2.qty)).sum
            = (b.index.map (fun e => e.2.qty)).sum - 2 * min buy.qty sell.qty := by
          have hKeys1 : (keysOf (b.index.map (updQty buy.id (min buy.qty sell.qty)))).Nodup := by
            rw [keysOf_updIndex]
            exact hKeys
          have hg1 : mapGet sell.id (b.index.map (updQty buy.id (min buy.qty sell.qty)))
              = some sell := by
            rw [mapGet_updIndex, if_neg (Ne.symm hne), hgs]
          rw [sumQty_updIndex hKeys1 hg1, sumQty_updIndex hKeys hgb]
          ring
        have hframe2 : ∀ e : String × Order,
            e ∈ (b.index.map (updQty buy.id (min buy.qty sell.qty))).map
              (updQty sell.id (min buy.qty sell.qty)) →
            e.1 ≠ buy.id → e.1 ≠ sell.id → mapGet e.1 b.index = some e.2 := by
          intro e he hne1 hne2
          obtain ⟨e₁, he₁, rfl⟩ := List.mem_map.mp he
          obtain ⟨e₀, he₀, rfl⟩ := List.mem_map.mp he₁
          rw [updQty_fst, updQty_fst] at hne1 hne2
          have h1 : updQty buy.id (min buy.qty sell.qty) e₀ = e₀ := by
            unfold updQty
            rw [if_neg hne1]
          rw [h1]
          have h2 : updQty sell.id (min buy.qty sell.qty) e₀ = e₀ := by
            unfold updQty
            rw [if_neg hne2]
          rw [h2]
          exact mem_mapGet hKeys he₀
        have hiB3 : ((b.withIndex
            ((b.index.map (updQty buy.id (min buy.qty sell.qty))).map
              (updQty sell.id (min buy.qty sell.qty)))).cancel buy.id).index
            = mapDelete buy.id
              ((b.index.map (updQty buy.id (min buy.qty sell.qty))).map
                (updQty sell.id (min buy.qty sell.qty))) :=
          cancel_index_of_WF hwf2 hgb2
        have hwf3 : WF ((b.withIndex
            ((b.index.map (updQty buy.id (min buy.qty sell.qty))).map
              (updQty sell.id (min buy.qty sell.qty)))).cancel buy.id) :=
          WF_cancel hwf2 buy.id
        have hKeys3 := hwf3.2.2.2.1
        have hgs3 : mapGet sell.id ((b.withIndex
            ((b.index.map (updQty buy.id (min buy.qty sell.qty))).map
              (updQty sell.id (min buy.qty sell.qty)))).cancel buy.id).index
            = some { sell with qty := sell.qty - min buy.qty sell.qty } := by
          rw [hiB3, mapGet_mapDelete_ne _ (Ne.symm hne)]
          exact hgs2
        have hiB4 : (((b.withIndex
            ((b.index.map (updQty buy.id (min buy.qty sell.qty))).map
              (updQty sell.id (min buy.qty sell.qty)))).cancel buy.id).cancel sell.id).index
            = mapDelete sell.id ((b.withIndex
              ((b.index.map (updQty buy.id (min buy.qty sell.qty))).map
                (updQty sell.id (min buy.qty sell.qty)))).cancel buy.id).index :=
          cancel_index_of_WF hwf3 hgs3
        have hiB4' : ((b.withIndex
            ((b.index.map (updQty buy.id (min buy.qty sell.qty))).map
              (updQty sell.id (min buy.qty sell.qty)))).cancel sell.id).index
            = mapDelete sell.id
              ((b.index.map (updQty buy.id (min buy.qty sell.qty))).map
                (updQty sell.id (min buy.qty sell.qty))) :=
          cancel_index_of_WF hwf2 hgs2
        have hminor : buy.qty - min buy.qty sell.qty = 0 ∨
            sell.qty - min buy.qty sell.qty = 0 := by
          rcases le_total buy.qty sell.qty with hmin | hmin
          · left
            rw [min_eq_left hmin]
            ring
          · right
            rw [min_eq_right hmin]
            ring
        refine ⟨buy, sell, rfl, rfl, not_lt.mp hp, rfl, ?_, ?_, ?_, ?_, ?_, ?_, ?_⟩
        · intro hbq
          by_cases hsq : sell.qty - min buy.qty sell.qty = 0
          · rw [if_pos hsq, if_pos hbq, hiB4, mapGet_mapDelete_ne _ hne, hiB3]
            exact mapGet_mapDelete_self hKeys2
          · rw [if_neg hsq, if_pos hbq, hiB3]
            exact mapGet_mapDelete_self hKeys2
        · intro hbq
          by_cases hsq : sell.qty - min buy.qty sell.qty = 0
          · rw [if_pos hsq, if_neg hbq, hiB4', mapGet_mapDelete_ne _ hne]
            exact hgb2
          · rw [if_neg hsq, if_neg hbq]
            exact hgb2
        · intro hsq
          by_cases hbq : buy.qty - min buy.qty sell.qty = 0
          · rw [if_pos hsq, if_pos hbq, hiB4]
            exact mapGet_mapDelete_self hKeys3
          · rw [if_pos hsq, if_neg hbq, hiB4']
            exact mapGet_mapDelete_self hKeys2
        · intro hsq
          by_cases hbq : buy.qty - min buy.qty sell.qty = 0
          · rw [if_neg hsq, if_pos hbq, hiB3, mapGet_mapDelete_ne _ (Ne.symm hne)]
            exact hgs2
          · rw [if_neg hsq, if_neg hbq]
            exact hgs2
        · intro e he hne1 hne2
          by_cases hsq : sell.qty - min buy.qty sell.qty = 0 <;>
            by_cases hbq : buy.qty - min buy.qty sell.qty = 0
          · rw [if_pos hsq, if_pos hbq, hiB4] at he
            have he3 := (mapDelete_sublist _ _).subset he
            rw [hiB3] at he3
            exact hframe2 e ((mapDelete_sublist _ _).subset he3) hne1 hne2
          · rw [if_pos hsq, if_neg hbq, hiB4'] at he
            exact hframe2 e ((mapDelete_sublist _ _).subset he) hne1 hne2
          · rw [if_neg hsq, if_pos hbq, hiB3] at he
            exact hframe2 e ((mapDelete_sublist _ _).subset he) hne1 hne2
          · rw [if_neg hsq, if_neg hbq] at he
            exact hframe2 e he hne1 hne2
        · by_cases hsq : sell.qty - min buy.qty sell.qty = 0 <;>
            by_cases hbq : buy.qty - min buy.qty sell.qty = 0
          · rw [if_pos hsq, if_pos hbq, hiB4]
            have h1 := (mapDelete_sublist sell.id ((b.withIndex
              ((b.index.map (updQty buy.id (min buy.qty sell.qty))).map
                (updQty sell.id (min buy.qty sell.qty)))).cancel buy.id).index).length_le
            have h2 : ((b.withIndex
                ((b.index.map (updQty buy.id (min buy.qty sell.qty))).map
                  (updQty sell.id (min buy.qty sell.qty)))).cancel buy.id).index.length
                < b.index.length := by
              rw [hiB3]
              have := length_mapDelete_lt (mapGet_some_mem_keys hgb2)
              omega
            omega
          · rw [if_pos hsq, if_neg hbq, hiB4']
            have := length_mapDelete_lt (mapGet_some_mem_keys hgs2)
            omega
          · rw [if_neg hsq, if_pos hbq, hiB3]
            have := length_mapDelete_lt (mapGet_some_mem_keys hgb2)
            omega
          · exact absurd hminor (by simp [hbq, hsq])
        · unfold totalQty
          by_cases hsq : sell.qty - min buy.qty sell.qty = 0 <;>
            by_cases hbq : buy.qty - min buy.qty sell.qty = 0
          · rw [if_pos hsq, if_pos hbq, hiB4, sumQty_mapDelete hKeys3 hgs3, hiB3,
              sumQty_mapDelete hKeys2 hgb2, htq2]
            simp only [hbq, hsq]
            ring
          · rw [if_pos hsq, if_neg hbq, hiB4', sumQty_mapDelete hKeys2 hgs2, htq2]
            simp only [hsq]
            ring
          · rw [if_neg hsq, if_pos hbq, hiB3, sumQty_mapDelete hKeys2 hgb2, htq2]
            simp only [hbq]
            ring
          · exact absurd hminor (by simp [hbq, hsq])

theorem PosQty_matchStep {b : OrderBook} {x : Event × List String × OrderBook}
    (hwf : WF b) (hpos : PosQty b) (h : MatchingEngine.matchStep b = some x) :
    PosQty x.2.2 := by
  obtain ⟨buy, sell, hb, hs, -, -, hb0, hbpos, hs0, hspos, hframe, -, -⟩ :=
    matchStep_anatomy hwf h
  have hwf4 := WF_matchStep hwf h
  have hKeys4 : (keysOf x.2.2.index).Nodup := hwf4.2.2.2.1
  intro e he
  by_cases h1 : e.1 = buy.id
  · have hg4 : mapGet buy.id x.2.2.index = some e.2 := by
      rw [← h1]
      exact mem_mapGet hKeys4 he
    by_cases hq0 : buy.qty - min buy.qty sell.qty = 0
    · rw [hb0 hq0] at hg4
      exact absurd hg4 (by simp)
    · rw [hbpos hq0] at hg4
      injection hg4 with hg4
      rw [← hg4]
      show 0 < buy.qty - min buy.qty sell.qty
      have hle : min buy.qty sell.qty ≤ buy.qty := min_le_left _ _
      omega
  · by_cases h2 : e.1 = sell.id
    · have hg4 : mapGet sell.id x.2.2.index = some e.2 := by
        rw [← h2]
        exact mem_mapGet hKeys4 he
      by_cases hq0 : sell.qty - min buy.qty sell.qty = 0
      · rw [hs0 hq0] at hg4
        exact absurd hg4 (by simp)
      · rw [hspos hq0] at hg4
        injection hg4 with hg4
        rw [← hg4]
        show 0 < sell.qty - min buy.qty sell.qty
        have hle : min buy.qty sell.qty ≤ sell.qty := min_le_right _ _
        omega
    · exact hpos _ (mapGet_mem (hframe e he h1 h2))

theorem matchStep_none_iff (b : OrderBook) :
    MatchingEngine.matchStep b = none ↔ ¬ crossable b := by
  constructor
  · intro h hc
    obtain ⟨buy, sell, hb, hs, hps⟩ := hc
    unfold MatchingEngine.matchStep at h
    simp only [hb, hs] at h
    rw [if_neg (not_lt.mpr hps)] at h
    exact absurd h (by simp)
  · intro h
    unfold MatchingEngine.matchStep
    cases hb : b.bestBuy with
    | none => cases b.bestSell <;> rfl
    | some buy =>
      cases hs : b.bestSell with
      | none => rfl
      | some sell =>
        have hlt : buy.price < sell.price := by
          by_contra hq
          exact h ⟨buy, sell, hb, hs, not_lt.mp hq⟩
        dsimp only
        rw [if_pos hlt]

theorem matchStep_none_of_index_nil {b : OrderBook} (h : b.index = []) :
    MatchingEngine.matchStep b = none := by
  have hb : b.bestBuy = none := by
    unfold OrderBook.bestBuy
    cases hm : maxKey b.buys with
    | none => rfl
    | some p =>
      dsimp only
      cases hl : (mapGet p b.buys).getD [] with
      | nil => rfl
      | cons fid rest =>
        rw [h]
        rfl
  unfold MatchingEngine.matchStep
  rw [hb]

theorem matchRun_fixpoint (mode : ProcessMode) (n : Nat) (b : OrderBook)
    (hwf : WF b) (hn : b.index.length ≤ n) :
    MatchingEngine.matchStep (MatchingEngine.matchRun mode n b).1 = none := by
  induction n generalizing b with
  | zero =>
    have hnil : b.index = [] := List.length_eq_zero.mp (Nat.le_zero.mp hn)
    exact matchStep_none_of_index_nil hnil
  | succ n ih =>
    cases hstep : MatchingEngine.matchStep b with
    | none =>
      have h1 : (MatchingEngine.matchRun mode (n + 1) b).1 = b := by
        simp [MatchingEngine.matchRun, hstep]
      rw [h1]
      exact hstep
    | some x =>
      have h1 : (MatchingEngine.matchRun mode (n + 1) b).1
          = (MatchingEngine.matchRun mode n x.2.2).1 := by
        simp [MatchingEngine.matchRun, hstep]
      rw [h1]
      obtain ⟨-, -, -, -, -, -, -, -, -, -, -, hlen, -⟩ := matchStep_anatomy hwf hstep
      exact ih x.2.2 (WF_matchStep hwf hstep) (by omega)

/-- C4: on a well-formed book whose resting orders all have strictly
positive remaining quantity, every matching iteration strictly reduces the
total resting quantity (and the number of resting orders), the loop's exit
condition holds exactly when no crossable pair remains (best bid < best ask,
or either side empty), and the loop as run by the engine reaches that exit
condition — it terminates. -/
theorem c4_matching_loop_terminates (b : OrderBook) (hwf : WF b) (hpos : PosQty b) :
    (∀ x, MatchingEngine.matchStep b = some x →
      totalQty x.2.2 < totalQty b ∧ x.2.2.index.length < b.index.length) ∧
    (MatchingEngine.matchStep b = none ↔ ¬ crossable b) ∧
    (∀ mode, MatchingEngine.matchStep (MatchingEngine.matchLoop mode b).1 = none) := by
  refine ⟨?_, matchStep_none_iff b, ?_⟩
  · intro x hx
    obtain ⟨buy, sell, hb, hs, -, -, -, -, -, -, -, hlen, htq⟩ := matchStep_anatomy hwf hx
    refine ⟨?_, hlen⟩
    have h1 : 0 < buy.qty := hpos _ (mapGet_mem (bestBuy_mem hwf hb).1)
    have h2 : 0 < sell.qty := hpos _ (mapGet_mem (bestSell_mem hwf hs).1)
    have h3 : 0 < min buy.qty sell.qty := lt_min h1 h2
    omega
  · intro mode
    exact matchRun_fixpoint mode b.index.length b hwf le_rfl

/-- Witness for C4: the engine's matching loop reaches its exit condition on
the crossable book of the spec's scenario (resting bid 6@100, incoming ask
10@99). -/
theorem c4_matching_loop_terminates_witness :
    MatchingEngine.matchStep
      (MatchingEngine.matchLoop .live (scn2b.1.add sS2)).1 = none :=
  (c4_matching_loop_terminates (scn2b.1.add sS2) (by decide) (by decide)).2.2 .live

/-- C8: in a matching iteration on a well-formed positive-quantity book with
a crossable pair, the buy's and the sell's remaining quantities each
decrease by exactly the traded quantity (the minimum of the two), neither
becomes negative, an order whose remainder reaches exactly zero is removed
from the book, one with a positive remainder stays with exactly the
decremented quantity, every other order is untouched, and all orders after
the iteration still have strictly positive quantity. -/
theorem c8_partial_fill_consistency (b : OrderBook) (hwf : WF b) (hpos : PosQty b)
    (hcross : crossable b) :
    ∃ buy sell x, MatchingEngine.matchStep b = some x ∧
      b.bestBuy = some buy ∧ b.bestSell = some sell ∧
      x.1 = Event.TRADE buy.id sell.id (min buy.qty sell.qty) sell.price ∧
      0 ≤ buy.qty - min buy.qty sell.qty ∧ 0 ≤ sell.qty - min buy.qty sell.qty ∧
      (buy.qty - min buy.qty sell.qty = 0 → mapGet buy.id x.2.2.index = none) ∧
      (buy.qty - min buy.qty sell.qty ≠ 0 →
        mapGet buy.id x.2.2.index
          = some { buy with qty := buy.qty - min buy.qty sell.qty }) ∧
      (sell.qty - min buy.qty sell.qty = 0 → mapGet sell.id x.2.2.index = none) ∧
      (sell.qty - min buy.qty sell.qty ≠ 0 →
        mapGet sell.id x.2.2.index
          = some { sell with qty := sell.qty - min buy.qty sell.qty }) ∧
      (∀ e ∈ x.2.2.index, e.1 ≠ buy.id → e.1 ≠ sell.id → mapGet e.1 b.index = some e.2) ∧
      PosQty x.2.2 := by
  have hsome : ∃ x, MatchingEngine.matchStep b = some x := by
    cases hx : MatchingEngine.matchStep b with
    | none => exact absurd hcross ((matchStep_none_iff b).mp hx)
    | some x => exact ⟨x, rfl⟩
  obtain ⟨x, hx⟩ := hsome
  obtain ⟨buy, sell, hb, hs, hps, hx1, c1, c2, c3, c4, hframe, hlen, htq⟩ :=
    matchStep_anatomy hwf hx
  have h1 : 0 < buy.qty := hpos _ (mapGet_mem (bestBuy_mem hwf hb).1)
  have h2 : 0 < sell.qty := hpos _ (mapGet_mem (bestSell_mem hwf hs).1)
  refine ⟨buy, sell, x, hx, hb, hs, hx1, ?_, ?_, c1, c2, c3, c4, hframe,
    PosQty_matchStep hwf hpos hx⟩
  · have := min_le_left buy.qty sell.qty
    omega
  · have := min_le_right buy.qty sell.qty
    omega

/-- Witness for C8 at the crossable book of the spec's scenario: resting bid
B1 with remaining quantity 6 at 100, incoming ask S2 with quantity 10 at
99. -/
theorem c8_partial_fill_consistency_witness :
    ∃ buy sell x, MatchingEngine.matchStep (scn2b.1.add sS2) = some x ∧
      (scn2b.1.add sS2).bestBuy = some buy ∧ (scn2b.1.add sS2).bestSell = some sell ∧
      x.1 = Event.TRADE buy.id sell.id (min buy.qty sell.qty) sell.price ∧
      0 ≤ buy.qty - min buy.qty sell.qty ∧ 0 ≤ sell.qty - min buy.qty sell.qty ∧
      (buy.qty - min buy.qty sell.qty = 0 → mapGet buy.id x.2.2.index = none) ∧
      (buy.qty - min buy.qty sell.qty ≠ 0 →
        mapGet buy.id x.2.2.index
          = some { buy with qty := buy.qty - min buy.qty sell.qty }) ∧
      (sell.qty - min buy.qty sell.qty = 0 → mapGet sell.id x.2.2.index = none) ∧
      (sell.qty - min buy.qty sell.qty ≠ 0 →
        mapGet sell.id x.2.2.index
          = some { sell with qty := sell.qty - min buy.qty sell.qty }) ∧
      (∀ e ∈ x.2.2.index, e.1 ≠ buy.id → e.1 ≠ sell.id →
        mapGet e.1 (scn2b.1.add sS2).index = some e.2) ∧
      PosQty x.2.2 :=
  c8_partial_fill_consistency (scn2b.1.add sS2) (by decide) (by decide)
    ⟨{ id := "B1", side := .BUY, price := 100, qty := 6, ts := 1 },
     { id := "S2", side := .SELL, price := 99, qty := 10, ts := 3 },
     by decide, by decide, by decide⟩

end StockExchange
